import Mathlib

/-!
Shallow embedding of `kerastuner/engine/metrics_tracking.py`:
the `MetricsTracker` class (registration, append-only metric histories,
best-value / best-time queries, statistics, config round trip) and the
`infer_metric_direction` heuristic.

Float values are modelled as rationals extended with a NaN element (`EF`);
the source only passes values through and compares them, so the IEEE
behaviour that matters here is exactly "every comparison with NaN is false",
which `EF` reproduces.  Python exceptions are modelled with `Except`;
mutating methods return the (possibly partially) mutated tracker together
with the `Except` result, mirroring the state a Python exception leaves
behind.
-/

/-- A float value: either NaN or a finite value (modelled as a rational). -/
inductive EF where
  | nan : EF
  | fin : ℚ → EF
deriving DecidableEq, Repr

/-- IEEE `<=` on floats: any comparison involving NaN is false. -/
def EF.ble : EF → EF → Bool
  | .fin a, .fin b => decide (a ≤ b)
  | _, _ => false

/-- IEEE `>=` on floats: any comparison involving NaN is false. -/
def EF.bge : EF → EF → Bool
  | .fin a, .fin b => decide (b ≤ a)
  | _, _ => false

/-- IEEE `<` on floats: any comparison involving NaN is false. -/
def EF.blt : EF → EF → Bool
  | .fin a, .fin b => decide (a < b)
  | _, _ => false

/-- IEEE `>` on floats: any comparison involving NaN is false. -/
def EF.bgt : EF → EF → Bool
  | .fin a, .fin b => decide (b < a)
  | _, _ => false

/-- Whether a value is NaN. -/
def EF.isNaN : EF → Bool
  | .nan => true
  | .fin _ => false

/-- The finite (non-NaN) values of a list, in order. -/
def finites (l : List EF) : List ℚ :=
  l.filterMap fun e => match e with | .nan => none | .fin q => some q

/-- `np.nanmax`: maximum ignoring NaNs; NaN when no finite value exists. -/
def nanmax (l : List EF) : EF :=
  match finites l with
  | [] => .nan
  | q :: qs => .fin (qs.foldl max q)

/-- `np.nanmin`: minimum ignoring NaNs; NaN when no finite value exists. -/
def nanmin (l : List EF) : EF :=
  match finites l with
  | [] => .nan
  | q :: qs => .fin (qs.foldl min q)

/-- One step of Python's builtin `min` over floats: the accumulator is
replaced exactly when the next element compares `<` (false for NaN). -/
def pyMinStep (acc v : EF) : EF := if EF.blt v acc then v else acc

/-- One step of Python's builtin `max` over floats. -/
def pyMaxStep (acc v : EF) : EF := if EF.bgt v acc then v else acc

/-- Python's builtin `min` on a nonempty float list (left fold from the head). -/
def pyMin (x : EF) (xs : List EF) : EF := xs.foldl pyMinStep x

/-- Python's builtin `max` on a nonempty float list (left fold from the head). -/
def pyMax (x : EF) (xs : List EF) : EF := xs.foldl pyMaxStep x

/-- Loop of `np.argmin` past the first element: `mp` is the current finite
minimum, `best` its index, `i` the index of the next element.  The candidate
replaces the current minimum when `!(mp <= v)` — true both for `v < mp` and
for `v` NaN — and the loop stops at the first NaN (NaN propagates). -/
def npArgminGo : List EF → ℚ → Nat → Nat → Nat
  | [], _, best, _ => best
  | v :: rest, mp, best, i =>
    match v with
    | .nan => i
    | .fin q => if q < mp then npArgminGo rest q i (i + 1) else npArgminGo rest mp best (i + 1)

/-- Loop of `np.argmax` past the first element (mirror image of `npArgminGo`). -/
def npArgmaxGo : List EF → ℚ → Nat → Nat → Nat
  | [], _, best, _ => best
  | v :: rest, mp, best, i =>
    match v with
    | .nan => i
    | .fin q => if mp < q then npArgmaxGo rest q i (i + 1) else npArgmaxGo rest mp best (i + 1)

/-- Modelled from numpy semantics: `np.argmin` on a nonempty float array
returns the index of the first NaN if any is present, otherwise the first
index attaining the minimum.  (`np.argmin([])` raises; the source only calls
it on nonempty histories, so the `[]` case is junk.) -/
def npArgmin (l : List EF) : Nat :=
  match l with
  | [] => 0
  | .nan :: _ => 0
  | .fin m :: xs => npArgminGo xs m 0 1

/-- Modelled from numpy semantics: `np.argmax` (mirror image of `npArgmin`). -/
def npArgmax (l : List EF) : Nat :=
  match l with
  | [] => 0
  | .nan :: _ => 0
  | .fin m :: xs => npArgmaxGo xs m 0 1

/-! ### Direction inference (`infer_metric_direction`) -/

/-- `_MAX_METRICS` from the source: metric class names treated as maximized. -/
def maxMetricClasses : List String :=
  ["Accuracy", "BinaryAccuracy",
   "CategoricalAccuracy", "SparseCategoricalAccuracy",
   "TopKCategoricalAccuracy", "SparseTopKCategoricalAccuracy",
   "TruePositives", "TrueNegatives",
   "Precision", "Recall", "AUC",
   "SensitivityAtSpecificity", "SpecificityAtSensitivity"]

/-- `_MAX_METRIC_FNS` from the source: metric function names treated as maximized. -/
def maxMetricFns : List String :=
  ["accuracy", "categorical_accuracy", "binary_accuracy",
   "sparse_categorical_accuracy"]

/-- A metric object as `infer_metric_direction` inspects it after catalog
resolution: a `keras.metrics.Metric` instance (identified by class name), the
`MeanMetricWrapper` adapter (identified by the wrapped function's name), or a
plain metric function (identified by `__name__`). -/
inductive ResolvedMetric where
  | metricClass : String → ResolvedMetric
  | wrapper : String → ResolvedMetric
  | fn : String → ResolvedMetric
deriving DecidableEq, Repr

/-- The identity name the source compares against the two max-sets: the class
name, unwrapped to the wrapped function's name for `MeanMetricWrapper`, or the
function's `__name__`. -/
def ResolvedMetric.identityName : ResolvedMetric → String
  | .metricClass c => c
  | .wrapper f => f
  | .fn f => f

/-- Modelled from the spec: the external metric catalog (`keras.metrics.get`),
which resolves a canonical metric name to a descriptor or fails for unknown
names.  Only the accuracy-family resolutions affect a direction outcome (a
resolved non-accuracy metric and an unresolved name both yield `"min"`), so
the model resolves exactly the accuracy-family function names and leaves every
other name unresolved. -/
def kerasCatalog (name : String) : Option ResolvedMetric :=
  if name ∈ maxMetricFns then some (.fn name) else none

/-- The input of `infer_metric_direction`: a metric name or a metric object. -/
inductive MetricRef where
  | str : String → MetricRef
  | obj : ResolvedMetric → MetricRef
deriving DecidableEq, Repr

/-- Shared tail of `infer_metric_direction`: compare the resolved identity
against the two max-sets. -/
def directionOfResolved (m : ResolvedMetric) : String :=
  if m.identityName ∈ maxMetricClasses ∨ m.identityName ∈ maxMetricFns
  then "max" else "min"

/-- The canonical name a string input is reduced to: a leading `"val_"` is
stripped, but only when the name is strictly longer than 4 characters. -/
def canonicalName (s : String) : String :=
  if s.length > 4 ∧ s.take 4 = "val_" then s.drop 4 else s

/-- `infer_metric_direction` from the source: reduce a string to its
canonical name, special-case `"loss"`, consult the catalog (unknown names
default to `"min"`), then classify the resolved object by its identity name. -/
def infer_metric_direction : MetricRef → String
  | .str s =>
    let metricName := canonicalName s
    if metricName = "loss" then "min"
    else
      match kerasCatalog metricName with
      | none => "min"
      | some m => directionOfResolved m
  | .obj m => directionOfResolved m

/-! ### The tracker data model -/

/-- An element of a history list.  `MetricObservation(value, t)` is the normal
shape; `nonObs` models any other Python object, which `set_history` happily
stores (its list-ness assertion never inspects elements) but whose missing
`.value` / `.t` attributes make later accesses raise. -/
inductive HElem where
  | obs : EF → Int → HElem
  | nonObs : Nat → HElem
deriving DecidableEq, Repr

/-- Association-list lookup (Python `dict` access by key). -/
def alget {α : Type} : List (String × α) → String → Option α
  | [], _ => none
  | (k, v) :: rest, key => if k = key then some v else alget rest key

/-- Association-list store (Python `dict[key] = v`): replace in place if the
key is present, append otherwise. -/
def alset {α : Type} : List (String × α) → String → α → List (String × α)
  | [], key, v => [(key, v)]
  | (k, w) :: rest, key, v =>
    if k = key then (key, v) :: rest else (k, w) :: alset rest key v

/-- `MetricsTracker`'s state: the `names` list and the `directions` and
`metrics_history` dicts (modelled as insertion-ordered association lists). -/
structure Tracker where
  names : List String
  directions : List (String × String)
  metrics_history : List (String × List HElem)
deriving DecidableEq, Repr

/-- The Python exceptions the embedded operations can raise. -/
inductive TrackerError where
  | invalidDirection : String → TrackerError
  | duplicateMetric : String → TrackerError
  | unknownMetric : String → TrackerError
  | invalidValue : TrackerError
  | invalidHistory : TrackerError
  | attributeError : TrackerError
  | keyError : TrackerError
  | typeError : TrackerError
  | emptySeqError : TrackerError
deriving DecidableEq, Repr

/-- Equality of `Except` results is decidable (needed to evaluate concrete
runs of the embedded operations). -/
instance {ε α : Type} [DecidableEq ε] [DecidableEq α] : DecidableEq (Except ε α) := fun a b =>
  match a, b with
  | .error e1, .error e2 =>
    if h : e1 = e2 then isTrue (by rw [h]) else isFalse fun hc => h (Except.error.inj hc)
  | .ok a1, .ok a2 =>
    if h : a1 = a2 then isTrue (by rw [h]) else isFalse fun hc => h (Except.ok.inj hc)
  | .error _, .ok _ => isFalse fun hc => Except.noConfusion hc
  | .ok _, .error _ => isFalse fun hc => Except.noConfusion hc

/-- `MetricsTracker()` with no metrics: all three containers empty. -/
def emptyTracker : Tracker := ⟨[], [], []⟩

/-- `self.exists(name)`: membership in `names`. -/
def Tracker.exists (tr : Tracker) (name : String) : Bool := name ∈ tr.names

/-- The direction `register` validates: the supplied one, or — when omitted —
the one inferred from the name. -/
def effRegDir (name : String) (direction : Option String) : String :=
  match direction with
  | none => infer_metric_direction (.str name)
  | some d => d

/-- `register(name, direction)`: validate the (possibly inferred) direction,
reject duplicates, then add the name to all three containers. -/
def register (tr : Tracker) (name : String) (direction : Option String) :
    Tracker × Except TrackerError Unit :=
  let dir := effRegDir name direction
  if dir ≠ "min" ∧ dir ≠ "max" then
    (tr, .error (.invalidDirection dir))
  else if name ∈ tr.names then
    (tr, .error (.duplicateMetric name))
  else
    ({ names := tr.names ++ [name],
       directions := alset tr.directions name dir,
       metrics_history := alset tr.metrics_history name [] }, .ok ())

/-- An argument of `register_metrics`: a metric object carrying the `name`
attribute `register_metrics` reads and the identity `infer_metric_direction`
classifies. -/
structure MetricDesc where
  name : String
  resolved : ResolvedMetric
deriving DecidableEq, Repr

/-- The loop of `register_metrics`: register each metric with the direction
inferred from the object; a raised exception aborts the loop, keeping the
registrations already made. -/
def registerMetricsList (tr : Tracker) : List MetricDesc → Tracker × Except TrackerError Unit
  | [] => (tr, .ok ())
  | m :: ms =>
    let dir := infer_metric_direction (.obj m.resolved)
    match register tr m.name (some dir) with
    | (tr1, .ok _) => registerMetricsList tr1 ms
    | (tr1, .error e) => (tr1, .error e)

/-- `register_metrics(metrics)` with its `metrics or []` defaulting. -/
def register_metrics (tr : Tracker) (metrics : Option (List MetricDesc)) :
    Tracker × Except TrackerError Unit :=
  registerMetricsList tr (metrics.getD [])

/-- `MetricsTracker(metrics)`: start empty, then `register_metrics(metrics)`.
The first component is the state the constructor built (partial if it raised). -/
def mkTracker (metrics : Option (List MetricDesc)) : Tracker × Except TrackerError Unit :=
  register_metrics emptyTracker metrics

/-- `get_history(name)`: unknown names (not in `names`) raise; a name in
`names` but missing from the dict would be a `KeyError` (never happens for
key-aligned states). -/
def get_history (tr : Tracker) (name : String) : Except TrackerError (List HElem) :=
  if name ∈ tr.names then
    match alget tr.metrics_history name with
    | some h => .ok h
    | none => .error .keyError
  else .error (.unknownMetric name)

/-- `[obs.value for obs in history]`: reading `.value` off a non-observation
element raises `AttributeError`, aborting the whole comprehension. -/
def extractValues : List HElem → Option (List EF)
  | [] => some []
  | .obs v _ :: rest => (extractValues rest).map (v :: ·)
  | .nonObs _ :: _ => none

/-- The argument of `update`'s `value` parameter: a Python object that either
coerces under `float(...)` or raises. -/
inductive UpdVal where
  | val : EF → UpdVal
  | nonCoercible : UpdVal
deriving DecidableEq, Repr

/-- `update(name, value, t)`: coerce the value, auto-register unknown names,
snapshot the prior values, append the new observation, and report whether the
new value is best so far (`None` — modelled `Option.none` — would be returned
for a direction outside min/max). -/
def update (tr : Tracker) (name : String) (value : UpdVal) (t : Int) :
    Tracker × Except TrackerError (Option Bool) :=
  match value with
  | .nonCoercible => (tr, .error .invalidValue)
  | .val v =>
    let tr1 := if tr.exists name then tr else (register tr name none).1
    match get_history tr1 name with
    | .error e => (tr1, .error e)
    | .ok history =>
      match extractValues history with
      | none => (tr1, .error .attributeError)
      | some historyValues =>
        let tr2 := { tr1 with
          metrics_history := alset tr1.metrics_history name (history ++ [.obs v t]) }
        if historyValues.isEmpty then (tr2, .ok (some true))
        else
          match alget tr2.directions name with
          | none => (tr2, .error .keyError)
          | some d =>
            if d = "max" then (tr2, .ok (some (EF.bge v (nanmax historyValues))))
            else if d = "min" then (tr2, .ok (some (EF.ble v (nanmin historyValues))))
            else (tr2, .ok none)

/-- The `series` argument of `set_history`: a Python list (of arbitrary
elements) or any non-list object. -/
inductive SeriesArg where
  | lst : List HElem → SeriesArg
  | notList : SeriesArg
deriving DecidableEq, Repr

/-- `set_history(name, series)`: assert only that `series` is a list, then
auto-register unknown names and replace the history wholesale. -/
def set_history (tr : Tracker) (name : String) (series : SeriesArg) :
    Tracker × Except TrackerError Unit :=
  match series with
  | .notList => (tr, .error .invalidHistory)
  | .lst l =>
    match (if tr.exists name then (tr, .ok ()) else register tr name none) with
    | (tr1, .error e) => (tr1, .error e)
    | (tr1, .ok _) =>
      ({ tr1 with metrics_history := alset tr1.metrics_history name l }, .ok ())

/-! ### Query operations -/

/-- `get_best_value(name)`: `None` on an empty history; otherwise Python's
builtin `min` (direction `"min"`) or `max` (any other direction) over the
recorded values.  Python's `min`/`max` raise on an empty sequence; that branch
is unreachable because the history was checked nonempty. -/
def get_best_value (tr : Tracker) (name : String) : Except TrackerError (Option EF) :=
  match get_history tr name with
  | .error e => .error e
  | .ok history =>
    if history.length = 0 then .ok none
    else
      match extractValues history with
      | none => .error .attributeError
      | some historyValues =>
        match alget tr.directions name with
        | none => .error .keyError
        | some d =>
          match historyValues with
          | [] => .error .emptySeqError
          | x :: xs => if d = "min" then .ok (some (pyMin x xs)) else .ok (some (pyMax x xs))

/-- `get_best_t(name)`: `None` on an empty history; otherwise the `t` of the
observation at `np.argmin` / `np.argmax` of the values. -/
def get_best_t (tr : Tracker) (name : String) : Except TrackerError (Option Int) :=
  match get_history tr name with
  | .error e => .error e
  | .ok history =>
    if history.length = 0 then .ok none
    else
      match extractValues history with
      | none => .error .attributeError
      | some historyValues =>
        match alget tr.directions name with
        | none => .error .keyError
        | some d =>
          let tIndex := if d = "min" then npArgmin historyValues else npArgmax historyValues
          match history.get? tIndex with
          | some (.obs _ t) => .ok (some t)
          | some (.nonObs _) => .error .attributeError
          | none => .error .keyError

/-- Sum of a list of rationals. -/
def qsum (l : List ℚ) : ℚ := l.foldl (· + ·) 0

/-- `np.nanmean`: mean of the finite values; NaN when none exist. -/
def nanmean (l : List EF) : EF :=
  match finites l with
  | [] => .nan
  | q :: qs => .fin (qsum (q :: qs) / (q :: qs).length)

/-- `np.nanmedian`: median of the finite values (average of the two middle
elements for an even count); NaN when none exist. -/
def nanmedian (l : List EF) : EF :=
  match List.insertionSort (· ≤ ·) (finites l) with
  | [] => .nan
  | s@(_ :: _) =>
    let n := s.length
    if n % 2 = 1 then .fin (s.getD (n / 2) 0)
    else .fin ((s.getD (n / 2 - 1) 0 + s.getD (n / 2) 0) / 2)

/-- `np.nanvar`: population variance of the finite values; NaN when none
exist. -/
def nanvar (l : List EF) : EF :=
  match finites l with
  | [] => .nan
  | q :: qs =>
    match nanmean l with
    | .nan => .nan
    | .fin mu => .fin (qsum ((q :: qs).map (fun x => (x - mu) ^ 2)) / (q :: qs).length)

/-- A statistics entry: a float value, or the float square root of a value
(`np.nanstd` is the square root of `np.nanvar`; an exact square root does not
exist in the rational value model, so it is recorded symbolically). -/
inductive StatVal where
  | val : EF → StatVal
  | sqrtOfVal : EF → StatVal
deriving DecidableEq, Repr

/-- `get_statistics(name)`: an empty dict on an empty history, else the six
nan-aware aggregates keyed as in the source. -/
def get_statistics (tr : Tracker) (name : String) :
    Except TrackerError (List (String × StatVal)) :=
  match get_history tr name with
  | .error e => .error e
  | .ok history =>
    match extractValues history with
    | none => .error .attributeError
    | some historyValues =>
      if historyValues.length = 0 then .ok []
      else .ok
        [("min", .val (nanmin historyValues)),
         ("max", .val (nanmax historyValues)),
         ("mean", .val (nanmean historyValues)),
         ("median", .val (nanmedian historyValues)),
         ("var", .val (nanvar historyValues)),
         ("std", .sqrtOfVal (nanvar historyValues))]

/-- `get_last_value(name)`: the `.value` of the last history element, `None`
on an empty history. -/
def get_last_value (tr : Tracker) (name : String) : Except TrackerError (Option EF) :=
  match get_history tr name with
  | .error e => .error e
  | .ok history =>
    match history.getLast? with
    | none => .ok none
    | some (.obs v _) => .ok (some v)
    | some (.nonObs _) => .error .attributeError

/-! ### Config round trip -/

/-- The export payload of `get_config`: shallow copies of the three
containers (history elements are the very observation tuples). -/
structure TrackerConfig where
  names : List String
  directions : List (String × String)
  metrics_history : List (String × List HElem)
deriving DecidableEq, Repr

/-- `get_config()`. -/
def get_config (tr : Tracker) : TrackerConfig :=
  ⟨tr.names, tr.directions, tr.metrics_history⟩

/-- `MetricObservation(*obs)` applied to one stored element: an observation
tuple unpacks into an equal observation; any other object raises `TypeError`. -/
def rebuildObs : HElem → Option HElem
  | .obs v t => some (.obs v t)
  | .nonObs _ => none

/-- Rebuild one metric's history list, propagating a `TypeError`. -/
def rebuildHistory : List HElem → Option (List HElem)
  | [] => some []
  | e :: rest =>
    match rebuildObs e with
    | none => none
    | some e1 => (rebuildHistory rest).map (e1 :: ·)

/-- Rebuild the `metrics_history` dict entry by entry. -/
def rebuildAll : List (String × List HElem) → Option (List (String × List HElem))
  | [] => some []
  | (k, h) :: rest =>
    match rebuildHistory h with
    | none => none
    | some h1 => (rebuildAll rest).map ((k, h1) :: ·)

/-- `from_config(config)`: a fresh tracker whose fields are taken from the
config, with every history element re-packed through `MetricObservation(*obs)`. -/
def from_config (c : TrackerConfig) : Except TrackerError Tracker :=
  match rebuildAll c.metrics_history with
  | none => .error .typeError
  | some mh => .ok ⟨c.names, c.directions, mh⟩

/-! ### Invariants and spec-side notions -/

/-- Whether every element of a history is a genuine observation. -/
def wfHist (h : List HElem) : Bool :=
  h.all fun e => match e with | .obs _ _ => true | .nonObs _ => false

/-- A tracker all of whose stored histories hold only observations (the shape
every state reachable without `set_history`-injected garbage has). -/
def WFT (tr : Tracker) : Prop :=
  ∀ p ∈ tr.metrics_history, wfHist p.2 = true

/-- The three containers list the same keys, in the same insertion order. -/
def StructAligned (tr : Tracker) : Prop :=
  tr.directions.map Prod.fst = tr.names ∧ tr.metrics_history.map Prod.fst = tr.names

/-- The name sets of the three containers coincide (the invariant as the spec
states it, about key sets). -/
def KeysAligned (tr : Tracker) : Prop :=
  (∀ k, k ∈ tr.names ↔ k ∈ tr.directions.map Prod.fst) ∧
  (∀ k, k ∈ tr.names ↔ k ∈ tr.metrics_history.map Prod.fst)

/-- Every stored direction is `"min"` or `"max"`. -/
def ValidDirs (tr : Tracker) : Prop :=
  ∀ p ∈ tr.directions, p.2 = "min" ∨ p.2 = "max"

/-- The values of a history's observations, in order (defined for any
history; it agrees with `extractValues` on well-formed ones). -/
def obsValues (h : List HElem) : List EF :=
  h.filterMap fun e => match e with | .obs v _ => some v | .nonObs _ => none

/-- The history a metric currently has (empty when the metric is unknown). -/
def priorHist (tr : Tracker) (name : String) : List HElem :=
  (alget tr.metrics_history name).getD []

/-- The direction `update` ends up comparing under: the registered one, or —
for a name about to be auto-registered — the inferred one. -/
def effDir (tr : Tracker) (name : String) : String :=
  match alget tr.directions name with
  | some d => d
  | none => infer_metric_direction (.str name)

/-- The spec's "best so far" judgment on the prior values: the new value is
at least as extreme (per direction) as every prior non-NaN value; a NaN value
is never best, and with no prior non-NaN value to beat the comparison fails. -/
def isBestVsPrior (d : String) (v : EF) (hv : List EF) : Bool :=
  match v with
  | .nan => false
  | .fin q =>
    !(finites hv).isEmpty &&
      (if d = "max" then (finites hv).all fun x => decide (x ≤ q)
       else (finites hv).all fun x => decide (q ≤ x))

/-- The value `get_best_value` actually produces, stated positionally: NaN if
the first recorded value is NaN, otherwise the extremum of the non-NaN
values. -/
def bestValueSpec (d : String) (hv : List EF) : Option EF :=
  match hv with
  | [] => none
  | .nan :: _ => some .nan
  | .fin q :: rest =>
    some (.fin (if d = "min" then (finites rest).foldl min q else (finites rest).foldl max q))

/-- The NaN-aware extremum of a value list, when some non-NaN value exists. -/
def bestFinVal (d : String) (hv : List EF) : Option ℚ :=
  match finites hv with
  | [] => none
  | q :: qs => some (if d = "min" then qs.foldl min q else qs.foldl max q)

/-- The `t` of the history element at an index (for stating which observation
a query answered with). -/
def tAt (h : List HElem) (i : Nat) : Option Int :=
  match h.get? i with
  | some (.obs _ t) => some t
  | _ => none

/-! ### Basic lemmas -/

theorem alget_alset_self {α : Type} (l : List (String × α)) (k : String) (v : α) :
    alget (alset l k v) k = some v := by
  induction l with
  | nil => simp [alset, alget]
  | cons p rest ih =>
    obtain ⟨k1, v1⟩ := p
    by_cases h : k1 = k
    · simp [alset, alget, h]
    · simp [alset, alget, h, ih]

theorem alget_alset_ne {α : Type} (l : List (String × α)) (k k' : String) (v : α)
    (h : k' ≠ k) : alget (alset l k v) k' = alget l k' := by
  have hne : ¬ k = k' := fun hh => h hh.symm
  induction l with
  | nil => simp [alset, alget, hne]
  | cons p rest ih =>
    obtain ⟨k1, v1⟩ := p
    by_cases h1 : k1 = k
    · subst h1
      simp [alset, alget, hne]
    · simp [alset, alget, h1, ih]

theorem alget_eq_some_mem {α : Type} (l : List (String × α)) (k : String) (v : α)
    (h : alget l k = some v) : k ∈ l.map Prod.fst := by
  induction l with
  | nil => simp [alget] at h
  | cons p rest ih =>
    obtain ⟨k1, v1⟩ := p
    rw [List.map_cons]
    by_cases h1 : k1 = k
    · exact h1 ▸ List.mem_cons_self k1 _
    · simp only [alget, if_neg h1] at h
      exact List.mem_cons_of_mem _ (ih h)

theorem alget_not_mem {α : Type} (l : List (String × α)) (k : String)
    (h : k ∉ l.map Prod.fst) : alget l k = none := by
  cases hh : alget l k with
  | none => rfl
  | some v => exact absurd (alget_eq_some_mem l k v hh) h

theorem mem_alget_isSome {α : Type} (l : List (String × α)) (k : String)
    (h : k ∈ l.map Prod.fst) : (alget l k).isSome = true := by
  induction l with
  | nil => simp at h
  | cons p rest ih =>
    obtain ⟨k1, v1⟩ := p
    rw [List.map_cons] at h
    by_cases h1 : k1 = k
    · simp [alget, h1]
    · rcases List.mem_cons.mp h with h2 | h2
      · exact absurd h2.symm h1
      · simp [alget, h1, ih h2]

theorem alset_map_fst_mem {α : Type} (l : List (String × α)) (k : String) (v : α)
    (h : k ∈ l.map Prod.fst) : (alset l k v).map Prod.fst = l.map Prod.fst := by
  induction l with
  | nil => simp at h
  | cons p rest ih =>
    obtain ⟨k1, v1⟩ := p
    rw [List.map_cons] at h
    by_cases h1 : k1 = k
    · simp [alset, h1]
    · rcases List.mem_cons.mp h with h2 | h2
      · exact absurd h2.symm h1
      · simp [alset, h1, ih h2]

theorem alset_map_fst_new {α : Type} (l : List (String × α)) (k : String) (v : α)
    (h : k ∉ l.map Prod.fst) : (alset l k v).map Prod.fst = l.map Prod.fst ++ [k] := by
  induction l with
  | nil => simp [alset]
  | cons p rest ih =>
    obtain ⟨k1, v1⟩ := p
    rw [List.map_cons] at h
    have h1 : ¬ k1 = k := fun hh => h (hh ▸ List.mem_cons_self k1 _)
    have h2 : k ∉ rest.map Prod.fst := fun hh => h (List.mem_cons_of_mem _ hh)
    simp [alset, h1, ih h2]

theorem extractValues_wf (h : List HElem) (hw : wfHist h = true) :
    extractValues h = some (obsValues h) := by
  induction h with
  | nil => simp [extractValues, obsValues]
  | cons e rest ih =>
    cases e with
    | obs v t =>
      have hr : wfHist rest = true := by
        simp [wfHist] at hw ⊢
        exact hw
      simp [extractValues, obsValues, ih hr]
    | nonObs n => simp [wfHist] at hw

theorem obsValues_append (h1 h2 : List HElem) :
    obsValues (h1 ++ h2) = obsValues h1 ++ obsValues h2 := by
  simp [obsValues]

theorem obsValues_length (h : List HElem) (hw : wfHist h = true) :
    (obsValues h).length = h.length := by
  induction h with
  | nil => simp [obsValues]
  | cons e rest ih =>
    cases e with
    | obs v t =>
      have hr : wfHist rest = true := by
        simp [wfHist] at hw ⊢
        exact hw
      simp [obsValues] at ih ⊢
      exact ih hr
    | nonObs n => simp [wfHist] at hw

/-! ### Fold lemmas for extrema -/

theorem foldl_max_le_iff (q : ℚ) : ∀ (ms : List ℚ) (m : ℚ),
    ms.foldl max m ≤ q ↔ m ≤ q ∧ ∀ x ∈ ms, x ≤ q := by
  intro ms
  induction ms with
  | nil => simp
  | cons b rest ih =>
    intro m
    rw [List.foldl_cons, ih (max m b)]
    constructor
    · rintro ⟨h1, h2⟩
      rcases max_le_iff.mp h1 with ⟨hm, hb⟩
      exact ⟨hm, by
        intro x hx
        rcases List.mem_cons.mp hx with hx | hx
        · exact hx ▸ hb
        · exact h2 x hx⟩
    · rintro ⟨h1, h2⟩
      refine ⟨max_le h1 (h2 b (List.mem_cons_self _ _)), ?_⟩
      intro x hx
      exact h2 x (List.mem_cons_of_mem _ hx)

theorem le_foldl_min_iff (q : ℚ) : ∀ (ms : List ℚ) (m : ℚ),
    q ≤ ms.foldl min m ↔ q ≤ m ∧ ∀ x ∈ ms, q ≤ x := by
  intro ms
  induction ms with
  | nil => simp
  | cons b rest ih =>
    intro m
    rw [List.foldl_cons, ih (min m b)]
    constructor
    · rintro ⟨h1, h2⟩
      rcases le_min_iff.mp h1 with ⟨hm, hb⟩
      exact ⟨hm, by
        intro x hx
        rcases List.mem_cons.mp hx with hx | hx
        · exact hx ▸ hb
        · exact h2 x hx⟩
    · rintro ⟨h1, h2⟩
      refine ⟨le_min h1 (h2 b (List.mem_cons_self _ _)), ?_⟩
      intro x hx
      exact h2 x (List.mem_cons_of_mem _ hx)

theorem foldl_min_le_init : ∀ (l : List ℚ) (a : ℚ), l.foldl min a ≤ a := by
  intro l
  induction l with
  | nil => intro a; simp
  | cons b rest ih =>
    intro a
    rw [List.foldl_cons]
    exact le_trans (ih (min a b)) (min_le_left a b)

theorem foldl_min_le_mem : ∀ (l : List ℚ) (a x : ℚ), x ∈ l → l.foldl min a ≤ x := by
  intro l
  induction l with
  | nil => intro a x hx; simp at hx
  | cons b rest ih =>
    intro a x hx
    rw [List.foldl_cons]
    rcases List.mem_cons.mp hx with hx | hx
    · subst hx
      exact le_trans (foldl_min_le_init rest (min a x)) (min_le_right a x)
    · exact ih (min a b) x hx

theorem foldl_min_all_ge : ∀ (l : List ℚ) (a : ℚ), (∀ x ∈ l, a ≤ x) → l.foldl min a = a := by
  intro l
  induction l with
  | nil => intro a _; rfl
  | cons b rest ih =>
    intro a h
    rw [List.foldl_cons, min_eq_left (h b (List.mem_cons_self _ _))]
    exact ih a fun x hx => h x (List.mem_cons_of_mem _ hx)

theorem foldl_min_eq_init_iff (l : List ℚ) (a : ℚ) :
    l.foldl min a = a ↔ ∀ x ∈ l, a ≤ x := by
  constructor
  · intro h x hx
    exact h ▸ foldl_min_le_mem l a x hx
  · exact foldl_min_all_ge l a

theorem foldl_min_mem : ∀ (l : List ℚ) (a : ℚ), l.foldl min a = a ∨ l.foldl min a ∈ l := by
  intro l
  induction l with
  | nil => intro a; exact Or.inl rfl
  | cons b rest ih =>
    intro a
    rw [List.foldl_cons]
    rcases ih (min a b) with h | h
    · rcases min_choice a b with hc | hc
      · exact Or.inl (h.trans hc)
      · exact Or.inr (by rw [h.trans hc]; exact List.mem_cons_self b rest)
    · exact Or.inr (List.mem_cons_of_mem _ h)

theorem foldl_max_init_le : ∀ (l : List ℚ) (a : ℚ), a ≤ l.foldl max a := by
  intro l
  induction l with
  | nil => intro a; simp
  | cons b rest ih =>
    intro a
    rw [List.foldl_cons]
    exact le_trans (le_max_left a b) (ih (max a b))

theorem foldl_max_mem_le : ∀ (l : List ℚ) (a x : ℚ), x ∈ l → x ≤ l.foldl max a := by
  intro l
  induction l with
  | nil => intro a x hx; simp at hx
  | cons b rest ih =>
    intro a x hx
    rw [List.foldl_cons]
    rcases List.mem_cons.mp hx with hx | hx
    · subst hx
      exact le_trans (le_max_right a x) (foldl_max_init_le rest (max a x))
    · exact ih (max a b) x hx

theorem foldl_max_all_le : ∀ (l : List ℚ) (a : ℚ), (∀ x ∈ l, x ≤ a) → l.foldl max a = a := by
  intro l
  induction l with
  | nil => intro a _; rfl
  | cons b rest ih =>
    intro a h
    rw [List.foldl_cons, max_eq_left (h b (List.mem_cons_self _ _))]
    exact ih a fun x hx => h x (List.mem_cons_of_mem _ hx)

theorem foldl_max_eq_init_iff (l : List ℚ) (a : ℚ) :
    l.foldl max a = a ↔ ∀ x ∈ l, x ≤ a := by
  constructor
  · intro h x hx
    exact h ▸ foldl_max_mem_le l a x hx
  · exact foldl_max_all_le l a

theorem foldl_max_mem : ∀ (l : List ℚ) (a : ℚ), l.foldl max a = a ∨ l.foldl max a ∈ l := by
  intro l
  induction l with
  | nil => intro a; exact Or.inl rfl
  | cons b rest ih =>
    intro a
    rw [List.foldl_cons]
    rcases ih (max a b) with h | h
    · rcases max_choice a b with hc | hc
      · exact Or.inl (h.trans hc)
      · exact Or.inr (by rw [h.trans hc]; exact List.mem_cons_self b rest)
    · exact Or.inr (List.mem_cons_of_mem _ h)

/-! ### Direction inference facts -/

theorem infer_metric_direction_valid (r : MetricRef) :
    infer_metric_direction r = "min" ∨ infer_metric_direction r = "max" := by
  cases r with
  | str s =>
    unfold infer_metric_direction
    by_cases h1 : canonicalName s = "loss"
    · simp [h1]
    · simp only [h1, if_false]
      cases h2 : kerasCatalog (canonicalName s) with
      | none => simp
      | some m =>
        unfold directionOfResolved
        by_cases h3 : m.identityName ∈ maxMetricClasses ∨ m.identityName ∈ maxMetricFns
        · simp [h3]
        · simp [h3]
  | obj m =>
    unfold infer_metric_direction directionOfResolved
    by_cases h3 : m.identityName ∈ maxMetricClasses ∨ m.identityName ∈ maxMetricFns
    · simp [h3]
    · simp [h3]

/-! ### `register` characterization -/

theorem register_new (tr : Tracker) (name : String) (h : name ∉ tr.names) :
    register tr name none =
      ({ names := tr.names ++ [name],
         directions := alset tr.directions name (infer_metric_direction (.str name)),
         metrics_history := alset tr.metrics_history name [] }, .ok ()) := by
  unfold register
  rcases infer_metric_direction_valid (.str name) with hv | hv <;>
    simp [effRegDir, hv, h]

/-! ### Python fold bridges -/

theorem pyfold_min_nan (xs : List EF) : xs.foldl pyMinStep .nan = .nan := by
  induction xs with
  | nil => rfl
  | cons x rest ih =>
    have hstep : pyMinStep .nan x = .nan := by
      cases x <;> simp [pyMinStep, EF.blt]
    rw [List.foldl_cons, hstep, ih]

theorem pyfold_max_nan (xs : List EF) : xs.foldl pyMaxStep .nan = .nan := by
  induction xs with
  | nil => rfl
  | cons x rest ih =>
    have hstep : pyMaxStep .nan x = .nan := by
      cases x <;> simp [pyMaxStep, EF.bgt]
    rw [List.foldl_cons, hstep, ih]

theorem pyfold_min_fin : ∀ (xs : List EF) (a : ℚ),
    xs.foldl pyMinStep (.fin a) = .fin ((finites xs).foldl min a) := by
  intro xs
  induction xs with
  | nil => intro a; rfl
  | cons x rest ih =>
    intro a
    cases x with
    | nan =>
      have hstep : pyMinStep (.fin a) .nan = .fin a := by simp [pyMinStep, EF.blt]
      rw [List.foldl_cons, hstep, ih a]
      simp [finites]
    | fin b =>
      have hstep : pyMinStep (.fin a) (.fin b) = .fin (min a b) := by
        by_cases hb : b < a
        · simp [pyMinStep, EF.blt, hb, min_eq_right hb.le]
        · simp [pyMinStep, EF.blt, hb, min_eq_left (le_of_not_lt hb)]
      rw [List.foldl_cons, hstep, ih (min a b)]
      simp [finites]

theorem pyfold_max_fin : ∀ (xs : List EF) (a : ℚ),
    xs.foldl pyMaxStep (.fin a) = .fin ((finites xs).foldl max a) := by
  intro xs
  induction xs with
  | nil => intro a; rfl
  | cons x rest ih =>
    intro a
    cases x with
    | nan =>
      have hstep : pyMaxStep (.fin a) .nan = .fin a := by simp [pyMaxStep, EF.bgt]
      rw [List.foldl_cons, hstep, ih a]
      simp [finites]
    | fin b =>
      have hstep : pyMaxStep (.fin a) (.fin b) = .fin (max a b) := by
        by_cases hb : a < b
        · simp [pyMaxStep, EF.bgt, hb, max_eq_right hb.le]
        · simp [pyMaxStep, EF.bgt, hb, max_eq_left (le_of_not_lt hb)]
      rw [List.foldl_cons, hstep, ih (max a b)]
      simp [finites]

/-! ### nanmax / nanmin vs the spec's best-so-far judgment -/

theorem bge_nanmax_eq (v : EF) (hv : List EF) :
    EF.bge v (nanmax hv) = isBestVsPrior "max" v hv := by
  cases v with
  | nan =>
    have : EF.bge .nan (nanmax hv) = false := by
      cases nanmax hv <;> simp [EF.bge]
    rw [this]
    rfl
  | fin q =>
    unfold nanmax isBestVsPrior
    cases hf : finites hv with
    | nil => simp [EF.bge]
    | cons m ms =>
      simp only [List.isEmpty_cons, Bool.not_false, Bool.true_and, eq_self_iff_true, if_true]
      rw [Bool.eq_iff_iff]
      simp only [EF.bge, decide_eq_true_eq, List.all_eq_true, decide_eq_true_eq]
      rw [foldl_max_le_iff]
      constructor
      · rintro ⟨h1, h2⟩ x hx
        rcases List.mem_cons.mp hx with hx | hx
        · exact hx ▸ h1
        · exact h2 x hx
      · intro h
        exact ⟨h m (List.mem_cons_self m ms), fun x hx => h x (List.mem_cons_of_mem _ hx)⟩

theorem ble_nanmin_eq (v : EF) (hv : List EF) :
    EF.ble v (nanmin hv) = isBestVsPrior "min" v hv := by
  cases v with
  | nan =>
    have : EF.ble .nan (nanmin hv) = false := by
      cases nanmin hv <;> simp [EF.ble]
    rw [this]
    rfl
  | fin q =>
    unfold nanmin isBestVsPrior
    cases hf : finites hv with
    | nil => simp [EF.ble]
    | cons m ms =>
      simp only [List.isEmpty_cons, Bool.not_false, Bool.true_and]
      rw [if_neg (by decide : ¬ ("min" : String) = "max")]
      rw [Bool.eq_iff_iff]
      simp only [EF.ble, decide_eq_true_eq, List.all_eq_true, decide_eq_true_eq]
      rw [le_foldl_min_iff]
      constructor
      · rintro ⟨h1, h2⟩ x hx
        rcases List.mem_cons.mp hx with hx | hx
        · exact hx ▸ h1
        · exact h2 x hx
      · intro h
        exact ⟨h m (List.mem_cons_self m ms), fun x hx => h x (List.mem_cons_of_mem _ hx)⟩

theorem alget_eq_some_pair_mem {α : Type} (l : List (String × α)) (k : String) (v : α)
    (h : alget l k = some v) : (k, v) ∈ l := by
  induction l with
  | nil => simp [alget] at h
  | cons p rest ih =>
    obtain ⟨k1, v1⟩ := p
    by_cases h1 : k1 = k
    · subst h1
      simp [alget] at h
      simp [h]
    · simp only [alget, if_neg h1] at h
      exact List.mem_cons_of_mem _ (ih h)

theorem wfHist_priorHist (tr : Tracker) (name : String) (hw : WFT tr) :
    wfHist (priorHist tr name) = true := by
  unfold priorHist
  cases hh : alget tr.metrics_history name with
  | none => rfl
  | some h => exact hw (name, h) (alget_eq_some_pair_mem _ _ _ hh)

/-- The heart of claim C1, as the code actually behaves: `update` appends the
observation and reports "best so far" by comparing against the NaN-aware
extremum of the prior values — a comparison that is false whenever the new
value is NaN or no prior non-NaN value exists. -/
theorem update_characterization (tr : Tracker) (name : String) (v : EF) (t : Int)
    (ha : StructAligned tr) (hw : WFT tr) (hd : ValidDirs tr) :
    (update tr name (.val v) t).2 =
      .ok (some ((priorHist tr name).isEmpty ||
        isBestVsPrior (effDir tr name) v (obsValues (priorHist tr name)))) ∧
    alget (update tr name (.val v) t).1.metrics_history name =
      some (priorHist tr name ++ [.obs v t]) := by
  by_cases hmem : name ∈ tr.names
  · -- registered name: no auto-registration happens
    have hdm : name ∈ tr.directions.map Prod.fst := by rw [ha.1]; exact hmem
    have hmm : name ∈ tr.metrics_history.map Prod.fst := by rw [ha.2]; exact hmem
    obtain ⟨d, hd_eq⟩ := Option.isSome_iff_exists.mp (mem_alget_isSome _ _ hdm)
    obtain ⟨h, hm_eq⟩ := Option.isSome_iff_exists.mp (mem_alget_isSome _ _ hmm)
    have hwf : wfHist h = true := hw (name, h) (alget_eq_some_pair_mem _ _ _ hm_eq)
    have hprior : priorHist tr name = h := by simp [priorHist, hm_eq]
    have heff : effDir tr name = d := by simp [effDir, hd_eq]
    have hgh : get_history tr name = .ok h := by simp [get_history, hmem, hm_eq]
    have hex : Tracker.exists tr name = true := by simp [Tracker.exists, hmem]
    rw [hprior, heff]
    unfold update
    rw [hex]
    simp only [if_true, hgh, extractValues_wf h hwf]
    cases hE : (obsValues h).isEmpty with
    | true =>
      have hhe : h.isEmpty = true := by
        rcases h with _ | ⟨e, rest⟩
        · rfl
        · rcases e with ⟨v1, t1⟩ | n
          · simp [obsValues] at hE
          · simp [wfHist] at hwf
      simp [hE, hhe, alget_alset_self]
    | false =>
      have hne : ¬ (obsValues h = []) := by
        intro hc
        rw [hc] at hE
        simp at hE
      have hhe : h.isEmpty = false := by
        rcases h with _ | ⟨e, rest⟩
        · simp [obsValues] at hE
        · rfl
      have hdval := hd (name, d) (alget_eq_some_pair_mem _ _ _ hd_eq)
      have hget2 : alget (alset tr.metrics_history name (h ++ [HElem.obs v t])) name =
          some (h ++ [HElem.obs v t]) := alget_alset_self _ _ _
      rcases hdval with hdv | hdv <;> subst hdv
      · simp [hE, hne, hhe, hd_eq, hget2, ble_nanmin_eq]
      · simp [hE, hne, hhe, hd_eq, hget2, bge_nanmax_eq]
  · -- unknown name: update auto-registers it first
    have hdm : name ∉ tr.directions.map Prod.fst := by rw [ha.1]; exact hmem
    have hmm : name ∉ tr.metrics_history.map Prod.fst := by rw [ha.2]; exact hmem
    have hd_eq : alget tr.directions name = none := alget_not_mem _ _ hdm
    have hm_eq : alget tr.metrics_history name = none := alget_not_mem _ _ hmm
    have hprior : priorHist tr name = [] := by simp [priorHist, hm_eq]
    have heff : effDir tr name = infer_metric_direction (.str name) := by
      simp [effDir, hd_eq]
    have hex : Tracker.exists tr name = false := by simp [Tracker.exists, hmem]
    rw [hprior, heff]
    unfold update
    rw [hex]
    simp only [Bool.false_eq_true, if_false, register_new tr name hmem]
    have hgh : get_history
        { names := tr.names ++ [name],
          directions := alset tr.directions name (infer_metric_direction (.str name)),
          metrics_history := alset tr.metrics_history name [] } name = .ok [] := by
      simp [get_history, alget_alset_self]
    simp only [hgh]
    simp [extractValues, alget_alset_self, isBestVsPrior]

/-! ### `register` in full generality, and the config rebuild -/

theorem register_invalid (tr : Tracker) (name : String) (dopt : Option String)
    (h : effRegDir name dopt ≠ "min" ∧ effRegDir name dopt ≠ "max") :
    register tr name dopt = (tr, .error (.invalidDirection (effRegDir name dopt))) := by
  unfold register
  rw [if_pos h]

theorem register_dup_gen (tr : Tracker) (name : String) (dopt : Option String)
    (hv : effRegDir name dopt = "min" ∨ effRegDir name dopt = "max")
    (h : name ∈ tr.names) :
    register tr name dopt = (tr, .error (.duplicateMetric name)) := by
  unfold register
  rcases hv with hv | hv <;> rw [hv] <;> simp [h]

theorem register_ok (tr : Tracker) (name : String) (dopt : Option String)
    (hv : effRegDir name dopt = "min" ∨ effRegDir name dopt = "max")
    (h : name ∉ tr.names) :
    register tr name dopt =
      ({ names := tr.names ++ [name],
         directions := alset tr.directions name (effRegDir name dopt),
         metrics_history := alset tr.metrics_history name [] }, .ok ()) := by
  unfold register
  rcases hv with hv | hv <;> rw [hv] <;> simp [h]

theorem rebuildHistory_wf (h : List HElem) (hw : wfHist h = true) :
    rebuildHistory h = some h := by
  induction h with
  | nil => rfl
  | cons e rest ih =>
    cases e with
    | obs v t =>
      have hr : wfHist rest = true := by
        simp [wfHist] at hw ⊢
        exact hw
      simp [rebuildHistory, rebuildObs, ih hr]
    | nonObs n => simp [wfHist] at hw

theorem rebuildAll_wf (l : List (String × List HElem))
    (hw : ∀ p ∈ l, wfHist p.2 = true) : rebuildAll l = some l := by
  induction l with
  | nil => rfl
  | cons p rest ih =>
    obtain ⟨k, h⟩ := p
    have h1 : wfHist h = true := hw (k, h) (List.mem_cons_self _ _)
    have h2 : ∀ q ∈ rest, wfHist q.2 = true := fun q hq => hw q (List.mem_cons_of_mem _ hq)
    simp [rebuildAll, rebuildHistory_wf h h1, ih h2]

/-! ### `get_best_value` characterization -/

theorem get_best_value_characterization (tr : Tracker) (name : String)
    (h : List HElem) (d : String)
    (hmem : name ∈ tr.names) (hm_eq : alget tr.metrics_history name = some h)
    (hwf : wfHist h = true) (hd_eq : alget tr.directions name = some d)
    (hdv : d = "min" ∨ d = "max") :
    get_best_value tr name = .ok (bestValueSpec d (obsValues h)) := by
  have hgh : get_history tr name = .ok h := by simp [get_history, hmem, hm_eq]
  unfold get_best_value
  simp only [hgh]
  cases h with
  | nil => simp [obsValues, bestValueSpec]
  | cons e rest =>
    have hlen : ¬ ((e :: rest).length = 0) := by simp
    rw [if_neg hlen]
    rw [extractValues_wf _ hwf]
    cases e with
    | nonObs n => simp [wfHist] at hwf
    | obs v t =>
      have hov : obsValues (HElem.obs v t :: rest) = v :: obsValues rest := by
        simp [obsValues]
      rw [hov, hd_eq]
      cases v with
      | nan =>
        rcases hdv with hdv | hdv <;> subst hdv
        · simp [bestValueSpec, pyMin, pyfold_min_nan]
        · simp [bestValueSpec, pyMax, pyfold_max_nan]
      | fin q =>
        rcases hdv with hdv | hdv <;> subst hdv
        · simp [bestValueSpec, pyMin, pyfold_min_fin]
        · simp [bestValueSpec, pyMax, pyfold_max_fin]

/-! ### `np.argmin` / `np.argmax` characterizations -/

theorem npArgminGo_nan : ∀ (xs : List EF) (mp : ℚ) (best i : Nat),
    xs.any EF.isNaN = true →
    npArgminGo xs mp best i = i + xs.findIdx EF.isNaN := by
  intro xs
  induction xs with
  | nil => intro mp best i h; simp at h
  | cons v rest ih =>
    intro mp best i h
    cases v with
    | nan => simp [npArgminGo, List.findIdx_cons, EF.isNaN]
    | fin q =>
      have hrest : rest.any EF.isNaN = true := by
        simp [EF.isNaN] at h ⊢
        exact h
      rw [List.findIdx_cons]
      have hp : EF.isNaN (EF.fin q) = false := rfl
      rw [hp]
      show npArgminGo (EF.fin q :: rest) mp best i = i + (cond false 0 (rest.findIdx EF.isNaN + 1))
      rw [show npArgminGo (EF.fin q :: rest) mp best i =
        if q < mp then npArgminGo rest q i (i + 1) else npArgminGo rest mp best (i + 1) from rfl]
      by_cases hq : q < mp
      · rw [if_pos hq, ih q i (i + 1) hrest]
        simp
        omega
      · rw [if_neg hq, ih mp best (i + 1) hrest]
        simp
        omega

theorem npArgmaxGo_nan : ∀ (xs : List EF) (mp : ℚ) (best i : Nat),
    xs.any EF.isNaN = true →
    npArgmaxGo xs mp best i = i + xs.findIdx EF.isNaN := by
  intro xs
  induction xs with
  | nil => intro mp best i h; simp at h
  | cons v rest ih =>
    intro mp best i h
    cases v with
    | nan => simp [npArgmaxGo, List.findIdx_cons, EF.isNaN]
    | fin q =>
      have hrest : rest.any EF.isNaN = true := by
        simp [EF.isNaN] at h ⊢
        exact h
      rw [List.findIdx_cons]
      have hp : EF.isNaN (EF.fin q) = false := rfl
      rw [hp]
      show npArgmaxGo (EF.fin q :: rest) mp best i = i + (cond false 0 (rest.findIdx EF.isNaN + 1))
      rw [show npArgmaxGo (EF.fin q :: rest) mp best i =
        if mp < q then npArgmaxGo rest q i (i + 1) else npArgmaxGo rest mp best (i + 1) from rfl]
      by_cases hq : mp < q
      · rw [if_pos hq, ih q i (i + 1) hrest]
        simp
        omega
      · rw [if_neg hq, ih mp best (i + 1) hrest]
        simp
        omega

theorem npArgminGo_nonan : ∀ (xs : List EF) (mp : ℚ) (best i : Nat),
    xs.any EF.isNaN = false →
    npArgminGo xs mp best i =
      if (finites xs).all (fun x => decide (mp ≤ x)) then best
      else i + xs.findIdx (fun e => decide (e = EF.fin ((finites xs).foldl min mp))) := by
  intro xs
  induction xs with
  | nil => intro mp best i _; simp [npArgminGo, finites]
  | cons v rest ih =>
    intro mp best i h
    cases v with
    | nan => simp [EF.isNaN] at h
    | fin b =>
      have hrest : rest.any EF.isNaN = false := by
        simp [EF.isNaN] at h ⊢
        exact h
      have hfin : finites (EF.fin b :: rest) = b :: finites rest := by simp [finites]
      rw [show npArgminGo (EF.fin b :: rest) mp best i =
        if b < mp then npArgminGo rest b i (i + 1) else npArgminGo rest mp best (i + 1) from rfl]
      rw [hfin, List.all_cons, List.foldl_cons]
      by_cases hb : b < mp
      · have hmpb : decide (mp ≤ b) = false := by simp [not_le.mpr hb]
        have hminb : min mp b = b := min_eq_right hb.le
        rw [if_pos hb, ih b i (i + 1) hrest, hmpb, Bool.false_and, hminb, List.findIdx_cons]
        simp only [Bool.false_eq_true, if_false]
        cases hall : (finites rest).all (fun x => decide (b ≤ x)) with
        | true =>
          have hM : (finites rest).foldl min b = b :=
            foldl_min_all_ge _ _ fun x hx => of_decide_eq_true (List.all_eq_true.mp hall x hx)
          simp [hM]
        | false =>
          have hex : ∃ x ∈ finites rest, x < b := by
            by_contra hc
            push_neg at hc
            have hT : (finites rest).all (fun x => decide (b ≤ x)) = true := by
              rw [List.all_eq_true]
              intro x hx
              exact decide_eq_true (hc x hx)
            rw [hT] at hall
            exact Bool.noConfusion hall
          obtain ⟨x, hx, hxb⟩ := hex
          have hM : (finites rest).foldl min b < b :=
            lt_of_le_of_lt (foldl_min_le_mem _ _ _ hx) hxb
          have hne : decide (EF.fin b = EF.fin ((finites rest).foldl min b)) = false := by
            apply decide_eq_false
            intro hc
            injection hc with hc2
            exact absurd hM (by rw [← hc2]; exact lt_irrefl b)
          rw [hne]
          simp only [Bool.false_eq_true, if_false, cond_false]
          omega
      · have hmpb : decide (mp ≤ b) = true := decide_eq_true (le_of_not_lt hb)
        have hminb : min mp b = mp := min_eq_left (le_of_not_lt hb)
        rw [if_neg hb, ih mp best (i + 1) hrest, hmpb, Bool.true_and, hminb, List.findIdx_cons]
        cases hall : (finites rest).all (fun x => decide (mp ≤ x)) with
        | true => simp
        | false =>
          have hex : ∃ x ∈ finites rest, x < mp := by
            by_contra hc
            push_neg at hc
            have hT : (finites rest).all (fun x => decide (mp ≤ x)) = true := by
              rw [List.all_eq_true]
              intro x hx
              exact decide_eq_true (hc x hx)
            rw [hT] at hall
            exact Bool.noConfusion hall
          obtain ⟨x, hx, hxmp⟩ := hex
          have hM : (finites rest).foldl min mp < mp :=
            lt_of_le_of_lt (foldl_min_le_mem _ _ _ hx) hxmp
          have hMb : (finites rest).foldl min mp < b := lt_of_lt_of_le hM (le_of_not_lt hb)
          have hne : decide (EF.fin b = EF.fin ((finites rest).foldl min mp)) = false := by
            apply decide_eq_false
            intro hc
            injection hc with hc2
            exact absurd hMb (by rw [← hc2]; exact lt_irrefl b)
          rw [hne]
          simp only [Bool.false_eq_true, if_false, cond_false]
          omega

theorem npArgmaxGo_nonan : ∀ (xs : List EF) (mp : ℚ) (best i : Nat),
    xs.any EF.isNaN = false →
    npArgmaxGo xs mp best i =
      if (finites xs).all (fun x => decide (x ≤ mp)) then best
      else i + xs.findIdx (fun e => decide (e = EF.fin ((finites xs).foldl max mp))) := by
  intro xs
  induction xs with
  | nil => intro mp best i _; simp [npArgmaxGo, finites]
  | cons v rest ih =>
    intro mp best i h
    cases v with
    | nan => simp [EF.isNaN] at h
    | fin b =>
      have hrest : rest.any EF.isNaN = false := by
        simp [EF.isNaN] at h ⊢
        exact h
      have hfin : finites (EF.fin b :: rest) = b :: finites rest := by simp [finites]
      rw [show npArgmaxGo (EF.fin b :: rest) mp best i =
        if mp < b then npArgmaxGo rest b i (i + 1) else npArgmaxGo rest mp best (i + 1) from rfl]
      rw [hfin, List.all_cons, List.foldl_cons]
      by_cases hb : mp < b
      · have hmpb : decide (b ≤ mp) = false := by simp [not_le.mpr hb]
        have hmaxb : max mp b = b := max_eq_right hb.le
        rw [if_pos hb, ih b i (i + 1) hrest, hmpb, Bool.false_and, hmaxb, List.findIdx_cons]
        simp only [Bool.false_eq_true, if_false]
        cases hall : (finites rest).all (fun x => decide (x ≤ b)) with
        | true =>
          have hM : (finites rest).foldl max b = b :=
            foldl_max_all_le _ _ fun x hx => of_decide_eq_true (List.all_eq_true.mp hall x hx)
          simp [hM]
        | false =>
          have hex : ∃ x ∈ finites rest, b < x := by
            by_contra hc
            push_neg at hc
            have hT : (finites rest).all (fun x => decide (x ≤ b)) = true := by
              rw [List.all_eq_true]
              intro x hx
              exact decide_eq_true (hc x hx)
            rw [hT] at hall
            exact Bool.noConfusion hall
          obtain ⟨x, hx, hxb⟩ := hex
          have hM : b < (finites rest).foldl max b :=
            lt_of_lt_of_le hxb (foldl_max_mem_le _ _ _ hx)
          have hne : decide (EF.fin b = EF.fin ((finites rest).foldl max b)) = false := by
            apply decide_eq_false
            intro hc
            injection hc with hc2
            exact absurd hM (by rw [← hc2]; exact lt_irrefl b)
          rw [hne]
          simp only [Bool.false_eq_true, if_false, cond_false]
          omega
      · have hmpb : decide (b ≤ mp) = true := decide_eq_true (le_of_not_lt hb)
        have hmaxb : max mp b = mp := max_eq_left (le_of_not_lt hb)
        rw [if_neg hb, ih mp best (i + 1) hrest, hmpb, Bool.true_and, hmaxb, List.findIdx_cons]
        cases hall : (finites rest).all (fun x => decide (x ≤ mp)) with
        | true => simp
        | false =>
          have hex : ∃ x ∈ finites rest, mp < x := by
            by_contra hc
            push_neg at hc
            have hT : (finites rest).all (fun x => decide (x ≤ mp)) = true := by
              rw [List.all_eq_true]
              intro x hx
              exact decide_eq_true (hc x hx)
            rw [hT] at hall
            exact Bool.noConfusion hall
          obtain ⟨x, hx, hxmp⟩ := hex
          have hM : mp < (finites rest).foldl max mp :=
            lt_of_lt_of_le hxmp (foldl_max_mem_le _ _ _ hx)
          have hMb : b < (finites rest).foldl max mp := lt_of_le_of_lt (le_of_not_lt hb) hM
          have hne : decide (EF.fin b = EF.fin ((finites rest).foldl max mp)) = false := by
            apply decide_eq_false
            intro hc
            injection hc with hc2
            exact absurd hMb (by rw [← hc2]; exact lt_irrefl b)
          rw [hne]
          simp only [Bool.false_eq_true, if_false, cond_false]
          omega

theorem npArgmin_nan_case (hv : List EF) (ha : hv.any EF.isNaN = true) :
    npArgmin hv = hv.findIdx EF.isNaN := by
  cases hv with
  | nil => simp at ha
  | cons x xs =>
    cases x with
    | nan => simp [npArgmin, List.findIdx_cons, EF.isNaN]
    | fin q =>
      have hxs : xs.any EF.isNaN = true := by
        simp [EF.isNaN] at ha ⊢
        exact ha
      rw [show npArgmin (EF.fin q :: xs) = npArgminGo xs q 0 1 from rfl,
        npArgminGo_nan xs q 0 1 hxs, List.findIdx_cons]
      simp [EF.isNaN]
      omega

theorem npArgmax_nan_case (hv : List EF) (ha : hv.any EF.isNaN = true) :
    npArgmax hv = hv.findIdx EF.isNaN := by
  cases hv with
  | nil => simp at ha
  | cons x xs =>
    cases x with
    | nan => simp [npArgmax, List.findIdx_cons, EF.isNaN]
    | fin q =>
      have hxs : xs.any EF.isNaN = true := by
        simp [EF.isNaN] at ha ⊢
        exact ha
      rw [show npArgmax (EF.fin q :: xs) = npArgmaxGo xs q 0 1 from rfl,
        npArgmaxGo_nan xs q 0 1 hxs, List.findIdx_cons]
      simp [EF.isNaN]
      omega

theorem npArgmin_nonan_case (q : ℚ) (xs : List EF) (ha : xs.any EF.isNaN = false) :
    npArgmin (EF.fin q :: xs) =
      (EF.fin q :: xs).findIdx (fun e => decide (e = EF.fin ((finites xs).foldl min q))) := by
  rw [show npArgmin (EF.fin q :: xs) = npArgminGo xs q 0 1 from rfl,
    npArgminGo_nonan xs q 0 1 ha, List.findIdx_cons]
  cases hall : (finites xs).all (fun x => decide (q ≤ x)) with
  | true =>
    have hM : (finites xs).foldl min q = q :=
      foldl_min_all_ge _ _ fun x hx => of_decide_eq_true (List.all_eq_true.mp hall x hx)
    simp [hM]
  | false =>
    have hex : ∃ x ∈ finites xs, x < q := by
      by_contra hc
      push_neg at hc
      have hT : (finites xs).all (fun x => decide (q ≤ x)) = true := by
        rw [List.all_eq_true]
        intro x hx
        exact decide_eq_true (hc x hx)
      rw [hT] at hall
      exact Bool.noConfusion hall
    obtain ⟨x, hx, hxq⟩ := hex
    have hM : (finites xs).foldl min q < q :=
      lt_of_le_of_lt (foldl_min_le_mem _ _ _ hx) hxq
    have hne : decide (EF.fin q = EF.fin ((finites xs).foldl min q)) = false := by
      apply decide_eq_false
      intro hc
      injection hc with hc2
      exact absurd hM (by rw [← hc2]; exact lt_irrefl q)
    rw [hne]
    simp only [Bool.false_eq_true, if_false, cond_false]
    omega

theorem npArgmax_nonan_case (q : ℚ) (xs : List EF) (ha : xs.any EF.isNaN = false) :
    npArgmax (EF.fin q :: xs) =
      (EF.fin q :: xs).findIdx (fun e => decide (e = EF.fin ((finites xs).foldl max q))) := by
  rw [show npArgmax (EF.fin q :: xs) = npArgmaxGo xs q 0 1 from rfl,
    npArgmaxGo_nonan xs q 0 1 ha, List.findIdx_cons]
  cases hall : (finites xs).all (fun x => decide (x ≤ q)) with
  | true =>
    have hM : (finites xs).foldl max q = q :=
      foldl_max_all_le _ _ fun x hx => of_decide_eq_true (List.all_eq_true.mp hall x hx)
    simp [hM]
  | false =>
    have hex : ∃ x ∈ finites xs, q < x := by
      by_contra hc
      push_neg at hc
      have hT : (finites xs).all (fun x => decide (x ≤ q)) = true := by
        rw [List.all_eq_true]
        intro x hx
        exact decide_eq_true (hc x hx)
      rw [hT] at hall
      exact Bool.noConfusion hall
    obtain ⟨x, hx, hxq⟩ := hex
    have hM : q < (finites xs).foldl max q :=
      lt_of_lt_of_le hxq (foldl_max_mem_le _ _ _ hx)
    have hne : decide (EF.fin q = EF.fin ((finites xs).foldl max q)) = false := by
      apply decide_eq_false
      intro hc
      injection hc with hc2
      exact absurd hM (by rw [← hc2]; exact lt_irrefl q)
    rw [hne]
    simp only [Bool.false_eq_true, if_false, cond_false]
    omega

theorem get_obs_at (h : List HElem) (hwf : wfHist h = true) (i : Nat)
    (hi : i < h.length) :
    ∃ v t, h.get? i = some (HElem.obs v t) ∧ tAt h i = some t := by
  have he : h.get? i = some (h.get ⟨i, hi⟩) := List.get?_eq_get hi
  have hmem : h.get ⟨i, hi⟩ ∈ h := List.get?_mem he
  have hobs := List.all_eq_true.mp hwf _ hmem
  have he2 : h[i]? = some (h.get ⟨i, hi⟩) := by
    rw [← List.get?_eq_getElem?]
    exact he
  cases hg : h.get ⟨i, hi⟩ with
  | obs v t =>
    refine ⟨v, t, by rw [he, hg], ?_⟩
    have hg2 : h[i] = HElem.obs v t := hg
    simp [tAt, he2, hg, hg2]
  | nonObs n =>
    rw [hg] at hobs
    exact Bool.noConfusion hobs

theorem fin_mem_of_mem_finites (l : List EF) (q : ℚ) (h : q ∈ finites l) :
    EF.fin q ∈ l := by
  unfold finites at h
  rw [List.mem_filterMap] at h
  obtain ⟨b, hb, hf⟩ := h
  cases b with
  | nan => exact Option.noConfusion hf
  | fin p =>
    have : p = q := Option.some.inj hf
    exact this ▸ hb

/-! ### `get_best_t` characterization -/

theorem get_best_t_characterization (tr : Tracker) (name : String)
    (h : List HElem) (d : String)
    (hmem : name ∈ tr.names) (hm_eq : alget tr.metrics_history name = some h)
    (hwf : wfHist h = true) (hd_eq : alget tr.directions name = some d)
    (hdv : d = "min" ∨ d = "max") :
    (h = [] → get_best_t tr name = .ok none) ∧
    ((obsValues h).any EF.isNaN = true →
      get_best_t tr name = .ok (tAt h ((obsValues h).findIdx EF.isNaN))) ∧
    (h ≠ [] → (obsValues h).any EF.isNaN = false →
      ∃ m, bestFinVal d (obsValues h) = some m ∧
        get_best_value tr name = .ok (some (.fin m)) ∧
        get_best_t tr name =
          .ok (tAt h ((obsValues h).findIdx (fun e => decide (e = EF.fin m))))) := by
  have hgh : get_history tr name = .ok h := by simp [get_history, hmem, hm_eq]
  have hlen_eq : (obsValues h).length = h.length := obsValues_length h hwf
  refine ⟨?_, ?_, ?_⟩
  · intro h0
    subst h0
    unfold get_best_t
    simp [hgh]
  · intro hnan
    have hvlt : (obsValues h).findIdx EF.isNaN < (obsValues h).length :=
      List.findIdx_lt_length_of_exists (List.any_eq_true.mp hnan)
    have hilt : (obsValues h).findIdx EF.isNaN < h.length := hlen_eq ▸ hvlt
    have hlen : ¬ (h.length = 0) := by omega
    obtain ⟨v, t, hget, htat⟩ := get_obs_at h hwf _ hilt
    unfold get_best_t
    simp only [hgh]
    rw [if_neg hlen, extractValues_wf _ hwf, hd_eq]
    rcases hdv with hdv | hdv <;> subst hdv
    · dsimp only
      rw [if_pos rfl]
      rw [npArgmin_nan_case _ hnan]
      rw [hget, htat]
    · dsimp only
      rw [if_neg (by decide : ¬ ("max" : String) = "min")]
      rw [npArgmax_nan_case _ hnan]
      rw [hget, htat]
  · intro hne hnofan
    cases hh : h with
    | nil => exact absurd hh hne
    | cons e rest =>
      subst hh
      cases e with
      | nonObs n => simp [wfHist] at hwf
      | obs v t0 =>
        have hov : obsValues (HElem.obs v t0 :: rest) = v :: obsValues rest := by
          simp [obsValues]
        cases v with
        | nan =>
          rw [hov] at hnofan
          simp [EF.isNaN] at hnofan
        | fin q =>
          have hrest_nan : (obsValues rest).any EF.isNaN = false := by
            rw [hov, List.any_cons,
              show EF.isNaN (EF.fin q) = false from rfl, Bool.false_or] at hnofan
            exact hnofan
          have hfinv : finites (obsValues (HElem.obs (EF.fin q) t0 :: rest)) =
              q :: finites (obsValues rest) := by
            rw [hov]
            simp [finites]
          rcases hdv with hdv | hdv <;> subst hdv
          · refine ⟨(finites (obsValues rest)).foldl min q, ?_, ?_, ?_⟩
            · unfold bestFinVal
              rw [hfinv]
              simp
            · rw [get_best_value_characterization tr name _ "min" hmem hm_eq hwf hd_eq
                (Or.inl rfl)]
              rw [hov]
              simp [bestValueSpec]
            · have hargm := npArgmin_nonan_case q (obsValues rest) hrest_nan
              have hmmem : (finites (obsValues rest)).foldl min q ∈
                  q :: finites (obsValues rest) := by
                rcases foldl_min_mem (finites (obsValues rest)) q with hc | hc
                · rw [hc]; exact List.mem_cons_self _ _
                · exact List.mem_cons_of_mem _ hc
              have hfm : EF.fin ((finites (obsValues rest)).foldl min q) ∈
                  obsValues (HElem.obs (EF.fin q) t0 :: rest) := by
                apply fin_mem_of_mem_finites
                rw [hfinv]
                exact hmmem
              have hvlt : (obsValues (HElem.obs (EF.fin q) t0 :: rest)).findIdx
                  (fun e => decide (e = EF.fin ((finites (obsValues rest)).foldl min q))) <
                  (obsValues (HElem.obs (EF.fin q) t0 :: rest)).length :=
                List.findIdx_lt_length_of_exists ⟨_, hfm, by simp⟩
              have hilt := hlen_eq ▸ hvlt
              obtain ⟨v1, t1, hget, htat⟩ := get_obs_at _ hwf _ hilt
              unfold get_best_t
              simp only [hgh]
              rw [if_neg (by simp), extractValues_wf _ hwf, hd_eq]
              dsimp only
              rw [if_pos rfl]
              rw [show npArgmin (obsValues (HElem.obs (EF.fin q) t0 :: rest)) =
                npArgmin (EF.fin q :: obsValues rest) from by rw [hov]]
              rw [hargm]
              rw [show (EF.fin q :: obsValues rest) = obsValues (HElem.obs (EF.fin q) t0 :: rest)
                from hov.symm]
              rw [hget, htat]
          · refine ⟨(finites (obsValues rest)).foldl max q, ?_, ?_, ?_⟩
            · unfold bestFinVal
              rw [hfinv]
              simp
            · rw [get_best_value_characterization tr name _ "max" hmem hm_eq hwf hd_eq
                (Or.inr rfl)]
              rw [hov]
              simp [bestValueSpec]
            · have hargm := npArgmax_nonan_case q (obsValues rest) hrest_nan
              have hmmem : (finites (obsValues rest)).foldl max q ∈
                  q :: finites (obsValues rest) := by
                rcases foldl_max_mem (finites (obsValues rest)) q with hc | hc
                · rw [hc]; exact List.mem_cons_self _ _
                · exact List.mem_cons_of_mem _ hc
              have hfm : EF.fin ((finites (obsValues rest)).foldl max q) ∈
                  obsValues (HElem.obs (EF.fin q) t0 :: rest) := by
                apply fin_mem_of_mem_finites
                rw [hfinv]
                exact hmmem
              have hvlt : (obsValues (HElem.obs (EF.fin q) t0 :: rest)).findIdx
                  (fun e => decide (e = EF.fin ((finites (obsValues rest)).foldl max q))) <
                  (obsValues (HElem.obs (EF.fin q) t0 :: rest)).length :=
                List.findIdx_lt_length_of_exists ⟨_, hfm, by simp⟩
              have hilt := hlen_eq ▸ hvlt
              obtain ⟨v1, t1, hget, htat⟩ := get_obs_at _ hwf _ hilt
              unfold get_best_t
              simp only [hgh]
              rw [if_neg (by simp), extractValues_wf _ hwf, hd_eq]
              dsimp only
              rw [if_neg (by decide : ¬ ("max" : String) = "min")]
              rw [show npArgmax (obsValues (HElem.obs (EF.fin q) t0 :: rest)) =
                npArgmax (EF.fin q :: obsValues rest) from by rw [hov]]
              rw [hargm]
              rw [show (EF.fin q :: obsValues rest) = obsValues (HElem.obs (EF.fin q) t0 :: rest)
                from hov.symm]
              rw [hget, htat]

/-! ### Reachability and the key-set invariant -/

/-- One mutating call on a tracker (also a failing one: the first component
of each operation is the state the call leaves behind). -/
inductive TrackerStep : Tracker → Tracker → Prop where
  | reg (tr : Tracker) (name : String) (dopt : Option String) :
      TrackerStep tr (register tr name dopt).1
  | regMetrics (tr : Tracker) (ms : Option (List MetricDesc)) :
      TrackerStep tr (register_metrics tr ms).1
  | upd (tr : Tracker) (name : String) (value : UpdVal) (t : Int) :
      TrackerStep tr (update tr name value t).1
  | setH (tr : Tracker) (name : String) (series : SeriesArg) :
      TrackerStep tr (set_history tr name series).1

/-- Zero or more mutating calls. -/
inductive TrackerReachable : Tracker → Tracker → Prop where
  | refl (tr : Tracker) : TrackerReachable tr tr
  | tail {tr tr1 tr2 : Tracker} :
      TrackerReachable tr tr1 → TrackerStep tr1 tr2 → TrackerReachable tr tr2

theorem structAligned_keysAligned (tr : Tracker) (h : StructAligned tr) :
    KeysAligned tr := by
  refine ⟨fun k => ?_, fun k => ?_⟩
  · rw [h.1]
  · rw [h.2]

theorem register_structAligned (tr : Tracker) (name : String) (dopt : Option String)
    (h : StructAligned tr) : StructAligned (register tr name dopt).1 := by
  unfold register
  by_cases h1 : effRegDir name dopt ≠ "min" ∧ effRegDir name dopt ≠ "max"
  · rw [if_pos h1]
    exact h
  · rw [if_neg h1]
    by_cases h2 : name ∈ tr.names
    · rw [if_pos h2]
      exact h
    · rw [if_neg h2]
      have hd : name ∉ tr.directions.map Prod.fst := by rw [h.1]; exact h2
      have hm : name ∉ tr.metrics_history.map Prod.fst := by rw [h.2]; exact h2
      exact ⟨by rw [alset_map_fst_new _ _ _ hd, h.1],
             by rw [alset_map_fst_new _ _ _ hm, h.2]⟩

theorem get_history_ok_mem (tr : Tracker) (name : String) (hist : List HElem)
    (h : get_history tr name = .ok hist) :
    name ∈ tr.names ∧ alget tr.metrics_history name = some hist := by
  unfold get_history at h
  by_cases hm : name ∈ tr.names
  · rw [if_pos hm] at h
    cases ha : alget tr.metrics_history name with
    | none =>
      rw [ha] at h
      exact Except.noConfusion h
    | some h2 =>
      simp only [ha] at h
      have h3 : h2 = hist := by
        cases h
        rfl
      subst h3
      exact ⟨hm, rfl⟩
  · rw [if_neg hm] at h
    exact Except.noConfusion h

theorem update_fst_mh (tr : Tracker) (name : String) (v : EF) (t : Int) :
    ∃ tr1 : Tracker,
      (tr1 = tr ∨ tr1 = (register tr name none).1) ∧
      ((update tr name (.val v) t).1 = tr1 ∨
       ∃ hist, get_history tr1 name = .ok hist ∧
         (update tr name (.val v) t).1 =
           { tr1 with metrics_history := alset tr1.metrics_history name (hist ++ [.obs v t]) }) := by
  unfold update
  by_cases he : tr.exists name = true
  · refine ⟨tr, Or.inl rfl, ?_⟩
    rw [he]
    simp only [if_true]
    cases hg : get_history tr name with
    | error e => exact Or.inl rfl
    | ok hist =>
      dsimp only
      cases hx : extractValues hist with
      | none => exact Or.inl rfl
      | some hv =>
        refine Or.inr ⟨hist, rfl, ?_⟩
        dsimp only
        split
        · rfl
        · split
          · rfl
          · split
            · rfl
            · split
              · rfl
              · rfl
  · have he2 : tr.exists name = false := Bool.eq_false_iff.mpr he
    refine ⟨(register tr name none).1, Or.inr rfl, ?_⟩
    rw [he2]
    simp only [Bool.false_eq_true, if_false]
    cases hg : get_history (register tr name none).1 name with
    | error e => exact Or.inl rfl
    | ok hist =>
      dsimp only
      cases hx : extractValues hist with
      | none => exact Or.inl rfl
      | some hv =>
        refine Or.inr ⟨hist, rfl, ?_⟩
        dsimp only
        split
        · rfl
        · split
          · rfl
          · split
            · rfl
            · split
              · rfl
              · rfl

theorem update_structAligned (tr : Tracker) (name : String) (value : UpdVal) (t : Int)
    (h : StructAligned tr) : StructAligned (update tr name value t).1 := by
  cases value with
  | nonCoercible => exact h
  | val v =>
    obtain ⟨tr1, htr1, hcase⟩ := update_fst_mh tr name v t
    have h1 : StructAligned tr1 := by
      rcases htr1 with rfl | rfl
      · exact h
      · exact register_structAligned tr name none h
    rcases hcase with heq | ⟨hist, hgh, heq⟩
    · rw [heq]
      exact h1
    · rw [heq]
      obtain ⟨hm, _⟩ := get_history_ok_mem tr1 name hist hgh
      refine ⟨h1.1, ?_⟩
      show (alset tr1.metrics_history name _).map Prod.fst = tr1.names
      rw [alset_map_fst_mem _ _ _ (by rw [h1.2]; exact hm)]
      exact h1.2

theorem set_history_structAligned (tr : Tracker) (name : String) (series : SeriesArg)
    (h : StructAligned tr) : StructAligned (set_history tr name series).1 := by
  cases series with
  | notList => exact h
  | lst l =>
    unfold set_history
    by_cases he : tr.exists name = true
    · rw [he]
      rw [if_pos rfl]
      have hmem : name ∈ tr.names := by
        have h2 := he
        simp [Tracker.exists] at h2
        exact h2
      refine ⟨h.1, ?_⟩
      show (alset tr.metrics_history name l).map Prod.fst = tr.names
      rw [alset_map_fst_mem _ _ _ (by rw [h.2]; exact hmem)]
      exact h.2
    · have he2 : tr.exists name = false := Bool.eq_false_iff.mpr he
      have hmem : name ∉ tr.names := by
        simp [Tracker.exists] at he2
        exact he2
      rw [he2]
      rw [if_neg (by simp)]
      rw [register_new tr name hmem]
      dsimp only
      have hd : name ∉ tr.directions.map Prod.fst := by rw [h.1]; exact hmem
      have hm : name ∉ tr.metrics_history.map Prod.fst := by rw [h.2]; exact hmem
      refine ⟨by rw [alset_map_fst_new _ _ _ hd, h.1], ?_⟩
      show (alset (alset tr.metrics_history name []) name l).map Prod.fst = tr.names ++ [name]
      have hm2 : name ∈ (alset tr.metrics_history name []).map Prod.fst := by
        rw [alset_map_fst_new _ _ _ hm]
        simp
      rw [alset_map_fst_mem _ _ _ hm2, alset_map_fst_new _ _ _ hm, h.2]

theorem registerMetricsList_structAligned : ∀ (ms : List MetricDesc) (tr : Tracker),
    StructAligned tr → StructAligned (registerMetricsList tr ms).1 := by
  intro ms
  induction ms with
  | nil => intro tr h; exact h
  | cons m rest ih =>
    intro tr h
    have h1 := register_structAligned tr m.name
      (some (infer_metric_direction (.obj m.resolved))) h
    have hstep : registerMetricsList tr (m :: rest) =
        (match register tr m.name (some (infer_metric_direction (.obj m.resolved))) with
         | (tr1, .ok _) => registerMetricsList tr1 rest
         | (tr1, .error e) => (tr1, .error e)) := rfl
    rw [hstep]
    cases hr : register tr m.name (some (infer_metric_direction (.obj m.resolved))) with
    | mk tr1 res =>
      rw [hr] at h1
      cases res with
      | ok u => exact ih tr1 h1
      | error e => exact h1

theorem trackerStep_structAligned (tr tr1 : Tracker) (h : StructAligned tr)
    (hs : TrackerStep tr tr1) : StructAligned tr1 := by
  cases hs with
  | reg name dopt => exact register_structAligned tr name dopt h
  | regMetrics ms => exact registerMetricsList_structAligned (ms.getD []) tr h
  | upd name value t => exact update_structAligned tr name value t h
  | setH name series => exact set_history_structAligned tr name series h

theorem trackerReachable_structAligned (tr tr1 : Tracker) (h : StructAligned tr)
    (hr : TrackerReachable tr tr1) : StructAligned tr1 := by
  induction hr with
  | refl => exact h
  | tail hr hs ih => exact trackerStep_structAligned _ _ ih hs

theorem emptyTracker_structAligned : StructAligned emptyTracker := ⟨rfl, rfl⟩

theorem mkTracker_structAligned (ms : Option (List MetricDesc)) :
    StructAligned (mkTracker ms).1 :=
  registerMetricsList_structAligned (ms.getD []) emptyTracker emptyTracker_structAligned

/-! ### The claims -/

/-- C1 (amended): on a well-formed tracker, `update(name, v, t)` appends
`Observation(v, t)` to the metric's history (auto-registering an unknown
name) and returns `true` iff the metric had no prior observations, or `v` is
a non-NaN value at least as extreme (`>=` for max, `<=` for min) as every
prior non-NaN value, there being at least one; in particular it returns
`false` — not `true` — when all prior values are NaN, because the NaN-aware
extremum of an all-NaN history is NaN and comparisons with NaN are false. -/
theorem update_best_so_far_amended (tr : Tracker) (name : String) (v : EF) (t : Int)
    (ha : StructAligned tr) (hw : WFT tr) (hd : ValidDirs tr) :
    (update tr name (.val v) t).2 =
      .ok (some ((priorHist tr name).isEmpty ||
        isBestVsPrior (effDir tr name) v (obsValues (priorHist tr name)))) ∧
    alget (update tr name (.val v) t).1.metrics_history name =
      some (priorHist tr name ++ [.obs v t]) :=
  update_characterization tr name v t ha hw hd

/-- Witness for C1: the amended theorem applied to a fresh tracker. -/
theorem update_best_so_far_amended_witness :
    (update emptyTracker "loss" (.val (.fin 1)) 0).2 =
      .ok (some ((priorHist emptyTracker "loss").isEmpty ||
        isBestVsPrior (effDir emptyTracker "loss") (.fin 1)
          (obsValues (priorHist emptyTracker "loss")))) ∧
    alget (update emptyTracker "loss" (.val (.fin 1)) 0).1.metrics_history "loss" =
      some (priorHist emptyTracker "loss" ++ [.obs (.fin 1) 0]) :=
  update_best_so_far_amended emptyTracker "loss" (.fin 1) 0
    (by unfold StructAligned; decide) (by unfold WFT; decide) (by unfold ValidDirs; decide)

/-- Counterexample to C1 as stated: after one NaN observation the whole prior
history is NaN, yet the next update returns `false`, not `true`. -/
theorem update_all_nan_prior_counterexample :
    alget ((update emptyTracker "loss" (.val .nan) 0).1).metrics_history "loss" =
      some [HElem.obs .nan 0] ∧
    (update (update emptyTracker "loss" (.val .nan) 0).1 "loss" (.val (.fin 5)) 1).2 =
      .ok (some false) := by decide

/-- C10: `update` on a value `float(...)` rejects raises `InvalidValue`
immediately, before any registration or append: the returned tracker is the
input tracker, unchanged. -/
theorem update_invalid_value_unchanged (tr : Tracker) (name : String) (t : Int) :
    update tr name .nonCoercible t = (tr, .error .invalidValue) := rfl

/-- C2 (amended): for a registered metric with a well-formed history,
`get_best_value` returns `None` on an empty history, and otherwise the result
of Python's builtin `min`/`max`, whose NaN handling is positional rather than
NaN-aware: if the first recorded value is NaN the result is NaN; otherwise
NaN values are skipped and the result is the minimum (Minimize) / maximum
(Maximize) of the non-NaN values. -/
theorem get_best_value_amended (tr : Tracker) (name : String) (h : List HElem) (d : String)
    (hmem : name ∈ tr.names) (hm_eq : alget tr.metrics_history name = some h)
    (hwf : wfHist h = true) (hd_eq : alget tr.directions name = some d)
    (hdv : d = "min" ∨ d = "max") :
    get_best_value tr name = .ok (bestValueSpec d (obsValues h)) :=
  get_best_value_characterization tr name h d hmem hm_eq hwf hd_eq hdv

/-- Witness for C2: the amended theorem applied after one concrete update. -/
theorem get_best_value_amended_witness :
    get_best_value (update emptyTracker "loss" (.val (.fin 1)) 0).1 "loss" =
      .ok (bestValueSpec "min" (obsValues [HElem.obs (.fin 1) 0])) :=
  get_best_value_amended (update emptyTracker "loss" (.val (.fin 1)) 0).1 "loss"
    [HElem.obs (.fin 1) 0] "min" (by decide) (by decide) (by decide) (by decide) (Or.inl rfl)

/-- Counterexample to C2 as stated: the recorded values are `[NaN, 1.0]` —
not all NaN — yet `get_best_value` returns NaN instead of ignoring it,
because Python's builtin `min` keeps a NaN accumulator forever. -/
theorem get_best_value_nan_counterexample :
    alget ((update (update emptyTracker "loss" (.val .nan) 0).1 "loss"
        (.val (.fin 1)) 1).1).metrics_history "loss" =
      some [HElem.obs .nan 0, HElem.obs (.fin 1) 1] ∧
    get_best_value (update (update emptyTracker "loss" (.val .nan) 0).1 "loss"
        (.val (.fin 1)) 1).1 "loss" =
      .ok (some .nan) := by decide

/-- C3: for a well-formed tracker (histories hold only observations, the
shape the data model prescribes), importing the exported configuration
rebuilds the very same tracker: identical names, directions, and per-metric
observation sequences in the same order. -/
theorem config_roundtrip (tr : Tracker) (hw : WFT tr) :
    from_config (get_config tr) = .ok tr := by
  unfold from_config get_config
  rw [rebuildAll_wf tr.metrics_history hw]

/-- Witness for C3: the round trip on a concretely built tracker. -/
theorem config_roundtrip_witness :
    from_config (get_config (update emptyTracker "accuracy" (.val (.fin 1)) 2).1) =
      .ok (update emptyTracker "accuracy" (.val (.fin 1)) 2).1 :=
  config_roundtrip (update emptyTracker "accuracy" (.val (.fin 1)) 2).1 (by unfold WFT; decide)

/-- C4 (amended): `set_history(name, series)` fails with `InvalidHistory`
exactly when `series` is not a list; the elements of a list are never
inspected, so any list — including one whose elements are not Observations —
is accepted: an unknown `name` is auto-registered with name-based direction
inference and the metric's history is wholesale replaced with `series`. -/
theorem set_history_amended (tr : Tracker) (name : String) :
    set_history tr name .notList = (tr, .error .invalidHistory) ∧
    (∀ l : List HElem, name ∈ tr.names →
      set_history tr name (.lst l) =
        ({ tr with metrics_history := alset tr.metrics_history name l }, .ok ())) ∧
    (∀ l : List HElem, name ∉ tr.names →
      set_history tr name (.lst l) =
        ({ names := tr.names ++ [name],
           directions := alset tr.directions name (infer_metric_direction (.str name)),
           metrics_history := alset (alset tr.metrics_history name []) name l }, .ok ())) := by
  refine ⟨rfl, ?_, ?_⟩
  · intro l hmem
    unfold set_history
    have he : tr.exists name = true := by simp [Tracker.exists, hmem]
    rw [he, if_pos rfl]
  · intro l hmem
    unfold set_history
    have he : tr.exists name = false := by simp [Tracker.exists, hmem]
    rw [he, if_neg (by simp), register_new tr name hmem]

/-- Witness for C4: replacing the history of an already-registered metric. -/
theorem set_history_amended_witness :
    set_history (update emptyTracker "loss" (.val (.fin 1)) 0).1 "loss" (.lst []) =
      ({ (update emptyTracker "loss" (.val (.fin 1)) 0).1 with
          metrics_history :=
            alset (update emptyTracker "loss" (.val (.fin 1)) 0).1.metrics_history "loss" [] },
        .ok ()) :=
  (set_history_amended (update emptyTracker "loss" (.val (.fin 1)) 0).1 "loss").2.1 []
    (by decide)

/-- Counterexample to C4 as stated: a list whose single element is not an
Observation is accepted (and stored verbatim) instead of failing with
`InvalidHistory`. -/
theorem set_history_counterexample :
    (set_history emptyTracker "m" (.lst [HElem.nonObs 0])).2 = .ok () ∧
    alget (set_history emptyTracker "m" (.lst [HElem.nonObs 0])).1.metrics_history "m" =
      some [HElem.nonObs 0] := by decide

/-- C5: `infer_metric_direction` on a name is total with a valid result
(always `"min"` or `"max"`); names whose canonical form (the name with a
leading `"val_"` stripped) is `"loss"` yield `"min"`; names the external
catalog cannot resolve yield `"min"`; the accuracy family yields `"max"`,
also under a `"val_"` prefix. -/
theorem infer_direction_contract :
    (∀ s : String, infer_metric_direction (.str s) = "min" ∨
      infer_metric_direction (.str s) = "max") ∧
    (∀ s : String, canonicalName s = "loss" → infer_metric_direction (.str s) = "min") ∧
    (∀ s : String, kerasCatalog (canonicalName s) = none →
      infer_metric_direction (.str s) = "min") ∧
    infer_metric_direction (.str "accuracy") = "max" ∧
    infer_metric_direction (.str "val_accuracy") = "max" := by
  refine ⟨fun s => infer_metric_direction_valid (.str s), ?_, ?_, by decide, by decide⟩
  · intro s hs
    unfold infer_metric_direction
    dsimp only
    rw [hs]
    rfl
  · intro s hs
    unfold infer_metric_direction
    dsimp only
    by_cases hloss : canonicalName s = "loss"
    · rw [hloss]
      rfl
    · rw [if_neg hloss, hs]

/-- Witness for C5: an unknown name falls back to `"min"`. -/
theorem infer_direction_contract_witness :
    infer_metric_direction (.str "zzz_custom") = "min" :=
  infer_direction_contract.2.2.1 "zzz_custom" (by decide)

/-- C6 (amended): for a registered metric with a well-formed history,
`get_best_t` returns `None` on an empty history; when no recorded value is
NaN it returns the `t` of the earliest-index observation achieving the
extremum of `get_best_value` (ties resolve to the earliest index); but when
some recorded value is NaN it returns the `t` of the earliest NaN
observation (`np.argmin`/`np.argmax` propagate NaN), which need not carry
the extremum `get_best_value` reports. -/
theorem get_best_t_amended (tr : Tracker) (name : String)
    (h : List HElem) (d : String)
    (hmem : name ∈ tr.names) (hm_eq : alget tr.metrics_history name = some h)
    (hwf : wfHist h = true) (hd_eq : alget tr.directions name = some d)
    (hdv : d = "min" ∨ d = "max") :
    (h = [] → get_best_t tr name = .ok none) ∧
    ((obsValues h).any EF.isNaN = true →
      get_best_t tr name = .ok (tAt h ((obsValues h).findIdx EF.isNaN))) ∧
    (h ≠ [] → (obsValues h).any EF.isNaN = false →
      ∃ m, bestFinVal d (obsValues h) = some m ∧
        get_best_value tr name = .ok (some (.fin m)) ∧
        get_best_t tr name =
          .ok (tAt h ((obsValues h).findIdx (fun e => decide (e = EF.fin m))))) :=
  get_best_t_characterization tr name h d hmem hm_eq hwf hd_eq hdv

/-- Witness for C6: two equal observations at `t = 1` and `t = 5`; the
earliest index wins. -/
theorem get_best_t_amended_witness :
    ∃ m, bestFinVal "min" (obsValues [HElem.obs (.fin 1) 1, HElem.obs (.fin 1) 5]) = some m ∧
      get_best_value (update (update emptyTracker "loss" (.val (.fin 1)) 1).1 "loss"
          (.val (.fin 1)) 5).1 "loss" = .ok (some (.fin m)) ∧
      get_best_t (update (update emptyTracker "loss" (.val (.fin 1)) 1).1 "loss"
          (.val (.fin 1)) 5).1 "loss" =
        .ok (tAt [HElem.obs (.fin 1) 1, HElem.obs (.fin 1) 5]
          ((obsValues [HElem.obs (.fin 1) 1, HElem.obs (.fin 1) 5]).findIdx
            (fun e => decide (e = EF.fin m)))) :=
  (get_best_t_amended (update (update emptyTracker "loss" (.val (.fin 1)) 1).1 "loss"
      (.val (.fin 1)) 5).1 "loss" [HElem.obs (.fin 1) 1, HElem.obs (.fin 1) 5] "min"
    (by decide) (by decide) (by decide) (by decide) (Or.inl rfl)).2.2
    (by decide) (by decide)

/-- Counterexample to C6 as stated: the extremum `get_best_value` reports
(1.0) is achieved only by the observation at `t = 0`, yet `get_best_t`
returns `1` — the `t` of the NaN observation. -/
theorem get_best_t_nan_counterexample :
    alget ((update (update emptyTracker "loss" (.val (.fin 1)) 0).1 "loss"
        (.val .nan) 1).1).metrics_history "loss" =
      some [HElem.obs (.fin 1) 0, HElem.obs .nan 1] ∧
    get_best_value (update (update emptyTracker "loss" (.val (.fin 1)) 0).1 "loss"
        (.val .nan) 1).1 "loss" = .ok (some (.fin 1)) ∧
    get_best_t (update (update emptyTracker "loss" (.val (.fin 1)) 0).1 "loss"
        (.val .nan) 1).1 "loss" = .ok (some 1) := by decide

/-- C7: `register(name, direction)` fails with `InvalidDirection` exactly
when the supplied-or-inferred direction is outside `{"min", "max"}` (the
classifier itself never produces such a value, so only a supplied direction
can trigger it), fails with `DuplicateMetric` when `name` is already
registered, and otherwise appends `name` to `names`, sets
`directions[name]`, and initializes `metrics_history[name]` to `[]`. -/
theorem register_contract (tr : Tracker) (name : String) (dopt : Option String) :
    (∀ r : MetricRef, infer_metric_direction r = "min" ∨ infer_metric_direction r = "max") ∧
    (effRegDir name dopt ≠ "min" ∧ effRegDir name dopt ≠ "max" →
      register tr name dopt = (tr, .error (.invalidDirection (effRegDir name dopt)))) ∧
    ((effRegDir name dopt = "min" ∨ effRegDir name dopt = "max") → name ∈ tr.names →
      register tr name dopt = (tr, .error (.duplicateMetric name))) ∧
    ((effRegDir name dopt = "min" ∨ effRegDir name dopt = "max") → name ∉ tr.names →
      register tr name dopt =
        ({ names := tr.names ++ [name],
           directions := alset tr.directions name (effRegDir name dopt),
           metrics_history := alset tr.metrics_history name [] }, .ok ())) :=
  ⟨infer_metric_direction_valid,
   register_invalid tr name dopt,
   register_dup_gen tr name dopt,
   register_ok tr name dopt⟩

/-- Witness for C7: an explicit invalid direction `"up"` is rejected. -/
theorem register_contract_witness :
    register emptyTracker "x" (some "up") =
      (emptyTracker, .error (.invalidDirection "up")) :=
  (register_contract emptyTracker "x" (some "up")).2.1 (by decide)

/-- C8: in every tracker state reachable from an empty or pre-seeded tracker
by register / register_metrics / update / set_history calls — including
calls that raise — the set of names and the key sets of `directions` and
`metrics_history` coincide. -/
theorem reachable_key_sets_identical (init tr : Tracker)
    (hinit : init = emptyTracker ∨ ∃ ms, init = (mkTracker ms).1)
    (hr : TrackerReachable init tr) : KeysAligned tr := by
  have h0 : StructAligned init := by
    rcases hinit with rfl | ⟨ms, rfl⟩
    · exact emptyTracker_structAligned
    · exact mkTracker_structAligned ms
  exact structAligned_keysAligned tr (trackerReachable_structAligned init tr h0 hr)

/-- Witness for C8: one `register` step away from the empty tracker. -/
theorem reachable_key_sets_identical_witness :
    KeysAligned (register emptyTracker "x" none).1 :=
  reachable_key_sets_identical emptyTracker (register emptyTracker "x" none).1 (Or.inl rfl)
    (TrackerReachable.tail (TrackerReachable.refl emptyTracker)
      (TrackerStep.reg emptyTracker "x" none))

/-- C9: for a registered metric with an empty history, `get_statistics`
returns the empty mapping and `get_best_value` / `get_best_t` /
`get_last_value` return `None`; for a history ending in an appended
observation, `get_last_value` returns that observation's value, whatever
the observations' `t` fields are. -/
theorem empty_history_queries (tr : Tracker) (name : String) (h : List HElem)
    (hmem : name ∈ tr.names) (hm_eq : alget tr.metrics_history name = some h) :
    (h = [] → get_statistics tr name = .ok [] ∧ get_best_value tr name = .ok none ∧
      get_best_t tr name = .ok none ∧ get_last_value tr name = .ok none) ∧
    (∀ h0 v t, h = h0 ++ [HElem.obs v t] → get_last_value tr name = .ok (some v)) := by
  have hgh : get_history tr name = .ok h := by simp [get_history, hmem, hm_eq]
  constructor
  · rintro rfl
    refine ⟨?_, ?_, ?_, ?_⟩
    · unfold get_statistics
      simp [hgh, extractValues]
    · unfold get_best_value
      simp [hgh]
    · unfold get_best_t
      simp [hgh]
    · unfold get_last_value
      simp [hgh]
  · rintro h0 v t rfl
    unfold get_last_value
    simp [hgh, List.getLast?_concat]

/-- Witness for C9: queries on a freshly registered, never-updated metric. -/
theorem empty_history_queries_witness :
    get_statistics (register emptyTracker "loss" none).1 "loss" = .ok [] ∧
    get_best_value (register emptyTracker "loss" none).1 "loss" = .ok none ∧
    get_best_t (register emptyTracker "loss" none).1 "loss" = .ok none ∧
    get_last_value (register emptyTracker "loss" none).1 "loss" = .ok none :=
  (empty_history_queries (register emptyTracker "loss" none).1 "loss" []
    (by decide) (by decide)).1 rfl
